import Mathlib

/-!
Verification of the iceberk feature-extraction pipeline
(`src/pipeline.py`, `src/mathutil.py`) against its specification.

Numbers are modelled by `ℚ` (exact arithmetic in place of IEEE floats);
numpy arrays are modelled by Lean lists / `Matrix (Fin _) (Fin _) ℚ` /
flat buffers with an explicit storage-order flag where memory layout
matters.  Randomness (`np.random`) is modelled by explicit oracle
streams that the theorems quantify over.
-/

set_option maxHeartbeats 1000000

namespace Iceberk

/-! ## Python value model for spec dictionaries

`ThresholdEncoder.process` reads `self.specs.get('twoside', True)` and
branches on Python truthiness, so the value stored under `'twoside'`
must be modelled as a Python value (a bool or a string): in Python a
non-empty string such as `'abs'` is truthy. -/

inductive PyVal where
  | pybool (b : Bool)
  | pystr (s : String)
deriving DecidableEq

/-- Python truthiness: `bool(b) = b`, `bool(s) = (s ≠ '')`. -/
def PyVal.truthy : PyVal → Bool
  | .pybool b => b
  | .pystr s => s ≠ ""

/-! ## Error model -/

inductive PipeError where
  | configurationError (msg : String)
  | valueError (msg : String)
  | typeError (msg : String)
  | runtimeError (msg : String)
deriving DecidableEq

/-! ## FeatureEncoder.train  (pipeline.py lines 562-572)

```python
def __init__(self, specs, trainer = None):
    self.trainer = trainer
    self.dictionary = None
    ...
def train(self, incoming_patches):
    if self.trainer is not None:
        self.dictionary = self.trainer.train(incoming_patches)[0]
```

A trainer maps a patch batch to a `(dictionary, misc)` pair.  The
result type is `Except PipeError` so that the (non-)raising behaviour
of `train` is part of the model: the source contains no `raise`, so
both branches return `.ok`. -/

structure FeatureEncoderSt (π δ μ : Type) where
  trainer : Option (π → δ × μ)
  dictionary : Option δ

def FeatureEncoderSt.train (enc : FeatureEncoderSt π δ μ) (patches : π) :
    Except PipeError (FeatureEncoderSt π δ μ) :=
  match enc.trainer with
  | some t => .ok { enc with dictionary := some (t patches).1 }
  | none => .ok enc

/-! ## ThresholdEncoder.process  (pipeline.py lines 618-642)

```python
alpha = self.specs.get('alpha', 0.25)
output = mathutil.dot_image(image, self.dictionary.T)
if self.specs.get('twoside', True):
    ...concatenate output and -output...
elif self.specs['twoside'] == 'abs':
    np.abs(output, out=output)
else:
    pass
output -= alpha
np.clip(output, 0., np.inf, out=output)
```

The dictionary `D` has `n` rows; an input row `x` has `d` features;
`dot_image` against `D.T` sends `x` to the vector of inner products
`fun j => ∑ t, x t * D j t`.  Each processed row is modelled as a
`List ℚ` because the two-side branch doubles its width. -/

structure ThresholdSpecs where
  alpha : Option ℚ
  twoside : Option PyVal

/-- The projection `x · Dᵗ` for one input row. -/
def thresholdProj (D : Matrix (Fin n) (Fin d) ℚ) (x : Fin d → ℚ) : Fin n → ℚ :=
  fun j => ∑ t, x t * D j t

def thresholdRow (specs : ThresholdSpecs) (D : Matrix (Fin n) (Fin d) ℚ)
    (x : Fin d → ℚ) : List ℚ :=
  let alpha := specs.alpha.getD (1/4)
  let output : List ℚ := (List.finRange n).map (thresholdProj D x)
  let output2 :=
    if (specs.twoside.getD (.pybool true)).truthy then
      output ++ output.map (fun v => -v)
    else if specs.twoside = some (.pystr "abs") then
      output.map (fun v => |v|)
    else
      output
  output2.map (fun v => max (v - alpha) 0)

def thresholdProcess (specs : ThresholdSpecs) (D : Matrix (Fin n) (Fin d) ℚ)
    (X : List (Fin d → ℚ)) : List (List ℚ) :=
  X.map (thresholdRow specs D)

/-! Helper lemmas about `thresholdRow` in the two-side branch. -/

theorem thresholdRow_twoside_eq (specs : ThresholdSpecs)
    (D : Matrix (Fin n) (Fin d) ℚ) (x : Fin d → ℚ)
    (ht : (specs.twoside.getD (.pybool true)).truthy = true) :
    thresholdRow specs D x =
      (List.finRange n).map
          (fun j => max (thresholdProj D x j - specs.alpha.getD (1/4)) 0) ++
        (List.finRange n).map
          (fun j => max (-thresholdProj D x j - specs.alpha.getD (1/4)) 0) := by
  unfold thresholdRow
  simp only [ht, if_pos]
  simp only [List.map_append, List.map_map]
  rfl

theorem getD_map_append_left (f g : Fin n → ℚ) (k : Fin n) :
    ((List.finRange n).map f ++ (List.finRange n).map g).getD (k : ℕ) 0 = f k := by
  rw [List.getD_eq_getElem _ _
    (by simp only [List.length_append, List.length_map, List.length_finRange]; omega)]
  rw [List.getElem_append_left (by simp [k.isLt])]
  simp

theorem getD_map_append_right (f g : Fin n → ℚ) (k : Fin n) :
    ((List.finRange n).map f ++ (List.finRange n).map g).getD (n + (k : ℕ)) 0 = g k := by
  rw [List.getD_eq_getElem _ _
    (by simp only [List.length_append, List.length_map, List.length_finRange]; omega)]
  rw [List.getElem_append_right (by simp)]
  simp

theorem max_sub_alpha_not_both_pos (v alpha : ℚ) (h : 0 ≤ alpha) :
    max (v - alpha) 0 = 0 ∨ max (-v - alpha) 0 = 0 := by
  rcases le_or_lt v alpha with hv | hv
  · left
    exact max_eq_right (by linarith)
  · right
    exact max_eq_right (by linarith)

/-- C8: in two-side mode (`twoside` true) `ThresholdEncoder.process` maps each
input row to a row of width `2 * n` (twice the dictionary height); entry `k`
of the first half is `max (v - alpha) 0` and entry `n + k` of the second half
is `max (-v - alpha) 0` for the projection value `v = (x·Dᵗ) k`, and with
`alpha ≥ 0` at most one of the two is nonzero. -/
theorem thresholdEncoder_twoside_width_and_exclusive
    (specs : ThresholdSpecs) (D : Matrix (Fin n) (Fin d) ℚ)
    (X : List (Fin d → ℚ)) (x : Fin d → ℚ) (k : Fin n)
    (halpha : 0 ≤ specs.alpha.getD (1/4))
    (ht : specs.twoside = some (.pybool true)) :
    thresholdProcess specs D X = X.map (thresholdRow specs D) ∧
    (thresholdRow specs D x).length = 2 * n ∧
    (thresholdRow specs D x).getD (k : ℕ) 0 =
      max (thresholdProj D x k - specs.alpha.getD (1/4)) 0 ∧
    (thresholdRow specs D x).getD (n + (k : ℕ)) 0 =
      max (-thresholdProj D x k - specs.alpha.getD (1/4)) 0 ∧
    ((thresholdRow specs D x).getD (k : ℕ) 0 = 0 ∨
      (thresholdRow specs D x).getD (n + (k : ℕ)) 0 = 0) := by
  have hrow := thresholdRow_twoside_eq specs D x (by rw [ht]; rfl)
  refine ⟨rfl, ?_, ?_, ?_, ?_⟩
  · rw [hrow]
    simp [two_mul]
  · rw [hrow, getD_map_append_left]
  · rw [hrow, getD_map_append_right]
  · rw [hrow, getD_map_append_left, getD_map_append_right]
    exact max_sub_alpha_not_both_pos _ _ halpha

/-- Witness for C8 at a concrete instance (dictionary `[[1]]`, row `[3]`). -/
theorem thresholdEncoder_twoside_width_witness :
    (thresholdRow (n := 1) (d := 1) ⟨none, some (.pybool true)⟩ 1
        (fun _ => (3 : ℚ))).length = 2 * 1 :=
  (thresholdEncoder_twoside_width_and_exclusive ⟨none, some (.pybool true)⟩ 1
      [] (fun _ => (3 : ℚ)) 0 (by norm_num) rfl).2.1

/-- C9 (code bug): with `twoside = 'abs'`, the source's
`if self.specs.get('twoside', True):` test is satisfied (a non-empty string
is truthy in Python), so the two-side concatenation branch runs and the
dead `elif == 'abs'` branch is skipped.  With dictionary `[[1]]` and input
row `[3]` the output row is `[11/4, 0]` of width 2, not the single-side
absolute-value row `[11/4]` of width 1 that the claim describes. -/
theorem thresholdEncoder_abs_mode_failing_input :
    thresholdProcess (n := 1) (d := 1) ⟨none, some (.pystr "abs")⟩ 1
        [fun _ => (3 : ℚ)] = [[11/4, 0]] ∧
    ((thresholdProcess (n := 1) (d := 1) ⟨none, some (.pystr "abs")⟩ 1
        [fun _ => (3 : ℚ)]).getD 0 []).length = 2 := by
  constructor
  · show [thresholdRow ⟨none, some (.pystr "abs")⟩ 1 (fun _ => (3 : ℚ))] = [[11/4, 0]]
    rw [thresholdRow_twoside_eq ⟨none, some (.pystr "abs")⟩ 1
      (fun _ => (3 : ℚ)) (by decide)]
    norm_num [List.finRange, thresholdProj, Matrix.one_apply]
  · rfl

/-- C7 counterexample: the source of `FeatureEncoder.train` is
`if self.trainer is not None: self.dictionary = ...` — with no trainer it
raises nothing and returns normally, so at the concrete encoder
`{trainer := none, dictionary := some 7}` the call yields `.ok`, not a
`ConfigurationError`. -/
theorem featureEncoder_train_no_trainer_returns_ok :
    FeatureEncoderSt.train (π := ℕ) (δ := ℕ) (μ := Unit) ⟨none, some 7⟩ 3 =
      Except.ok ⟨none, some 7⟩ := rfl

/-- C7 amended: invoking `train` on a `FeatureEncoder` constructed without a
trainer is a silent no-op: it raises no error and leaves the encoder (in
particular its dictionary) unchanged. -/
theorem featureEncoder_train_no_trainer_noop (enc : FeatureEncoderSt π δ μ)
    (patches : π) (h : enc.trainer = none) :
    enc.train patches = Except.ok enc := by
  unfold FeatureEncoderSt.train
  rw [h]

/-- Witness for the amended C7 at a concrete encoder. -/
theorem featureEncoder_train_no_trainer_noop_witness :
    FeatureEncoderSt.train (π := ℕ) (δ := ℕ) (μ := Unit) ⟨none, none⟩ 5 =
      Except.ok ⟨none, none⟩ :=
  featureEncoder_train_no_trainer_noop ⟨none, none⟩ 5 rfl

/-! ## VQEncoder.process  (pipeline.py lines 605-616)

```python
image_2d = image.reshape((np.prod(shape), num_channels))
distance = metrics.euclidean_distances(image_2d, self.dictionary)
output = np.zeros_like(distance)
idx = distance.argmin(axis=1)
output[:,idx] = 1
return output.reshape(shape + (output.shape[-1],))
```

`sklearn.metrics.euclidean_distances` (an external primitive) returns the
matrix of Euclidean distances; the model uses squared distances, which lie
in `ℚ` and have the same per-row argmin and the same tie structure because
`√` is strictly monotone on nonnegatives.  The key statement under test is
the numpy fancy assignment `output[:,idx] = 1`: it sets, in EVERY row, all
the columns listed in `idx` to 1 (it is a column-slice assignment), which
the fold below reproduces. -/

def sqDist (x y : Fin d → ℚ) : ℚ := ∑ t, (x t - y t) ^ 2

/-- `np.argmin` over one row: the first index attaining the minimum
(a later index replaces the running best only on strict improvement). -/
def argminRow (dist : Fin n → ℚ) (h : 0 < n) : Fin n :=
  (List.finRange n).foldl (fun best j => if dist j < dist best then j else best) ⟨0, h⟩

def vqProcess (h : 0 < n) (D : Matrix (Fin n) (Fin d) ℚ)
    (X : List (Fin d → ℚ)) : List (Fin n → ℚ) :=
  let distance : List (Fin n → ℚ) := X.map (fun x => fun j => sqDist x (D j))
  let idx : List (Fin n) := distance.map (fun dr => argminRow dr h)
  let output0 : List (Fin n → ℚ) := X.map (fun _ => fun _ => 0)
  idx.foldl (fun out c => out.map (fun row => Function.update row c 1)) output0

/-- C1 (code bug): with dictionary rows `(0)` and `(1)` and input rows
`(0)`, `(1)`, the nearest centroid of row 0 is centroid 0 and of row 1 is
centroid 1, so a one-hot output would put a 0 at entry `(0, 1)`; but
`output[:,idx] = 1` sets both listed columns in every row to 1, so output
row 0 carries a 1 at index 1 as well — it is not one-hot. -/
theorem vqEncoder_not_one_hot_failing_input :
    argminRow (fun j => sqDist (fun _ => (0 : ℚ)) (!![(0 : ℚ); 1] j)) (by norm_num) = 0 ∧
    argminRow (fun j => sqDist (fun _ => (1 : ℚ)) (!![(0 : ℚ); 1] j)) (by norm_num) = 1 ∧
    ((vqProcess (by norm_num) !![(0 : ℚ); 1]
        [fun _ => 0, fun _ => 1]).getD 0 (fun _ => 0)) 1 = 1 := by
  refine ⟨?_, ?_, ?_⟩ <;>
    norm_num [vqProcess, argminRow, sqDist, List.finRange_succ_eq_map,
      List.finRange_zero, Fin.sum_univ_one, Matrix.cons_val_zero,
      Matrix.cons_val_one, Matrix.head_cons, Function.update]

/-! ## ConvLayer.train  (pipeline.py lines 81-113)

```python
if len(self) == 0: return
if not isinstance(self[0], Extractor): raise ValueError(...)
patches = self[0].sample(dataset, num_patches, self._previous_layer, ...)
if len(self) == 1 or isinstance(self[1], Pooler): return
for i in range(1, len(self)):
    component = self[i]
    mpi.barrier()
    component.train(patches)
    if i == len(self) - 1 or isinstance(self[i+1], Pooler):
        break
    else:
        patches = component.process(patches)
```

Components are modelled as a runtime-kind tag plus an abstract pure
`process` function (design note §9 of the spec: the `isinstance` checks
become matches on the tag).  `sample`'s output is abstract (`sampled`).
`train` has side effects inside the component only, so the model records
the training trace: the list of `(index, patch batch it was trained on)`
pairs, in invocation order. -/

inductive CKind where
  | extractor
  | normalizer
  | encoder
  | pooler
deriving DecidableEq

structure PComp (α : Type) where
  kind : CKind
  proc : α → α

/-- The `for i in range(1, len(self))` loop with its break conditions. -/
def trainLoop (comps : List (PComp α)) (i : Nat) (patches : α) : List (Nat × α) :=
  if h : i < comps.length then
    if i = comps.length - 1 ∨ (comps[i+1]?).map PComp.kind = some CKind.pooler then
      [(i, patches)]
    else
      (i, patches) :: trainLoop comps (i + 1) ((comps.get ⟨i, h⟩).proc patches)
  else []
termination_by comps.length - i
decreasing_by omega

def convTrain (comps : List (PComp α)) (sampled : α) :
    Except PipeError (List (Nat × α)) :=
  if comps.length = 0 then .ok []
  else if (comps[0]?).map PComp.kind ≠ some CKind.extractor then
    .error (.valueError "The first component should be a patch extractor!")
  else if comps.length = 1 ∨ (comps[1]?).map PComp.kind = some CKind.pooler then .ok []
  else .ok (trainLoop comps 1 sampled)

/-- Spec-side description of the training trace, written from the claim: the
components after the extractor, in list order, up to (excluding) the first
`Pooler` or the end of the list, each paired with the patch batch it is
trained on; the batch fed to the next trainee is the previous component's
processed output. -/
def chainInputs (cs : List (PComp α)) (x : α) (i0 : Nat) : List (Nat × α) :=
  match cs with
  | [] => []
  | c :: rest => (i0, x) :: chainInputs rest (c.proc x) (i0 + 1)

def specTrainTrace (comps : List (PComp α)) (sampled : α) : List (Nat × α) :=
  chainInputs ((comps.drop 1).takeWhile (fun c => c.kind != CKind.pooler)) sampled 1

theorem trainLoop_eq_chainInputs (comps : List (PComp α)) :
    ∀ k i x, comps.length - i = k → ∀ (h : i < comps.length),
    (comps.get ⟨i, h⟩).kind ≠ CKind.pooler →
    trainLoop comps i x =
      chainInputs ((comps.drop i).takeWhile (fun c => c.kind != CKind.pooler)) x i := by
  intro k
  induction k using Nat.strong_induction_on with
  | _ k IH =>
    intro i x hk h hkind
    have hkindb : ((comps.get ⟨i, h⟩).kind != CKind.pooler) = true := by
      simpa using hkind
    have hdrop : comps.drop i = comps.get ⟨i, h⟩ :: comps.drop (i + 1) :=
      List.drop_eq_getElem_cons h
    rw [trainLoop, dif_pos h]
    by_cases hbrk : i = comps.length - 1 ∨
        (comps[i+1]?).map PComp.kind = some CKind.pooler
    · rw [if_pos hbrk, hdrop, List.takeWhile_cons, if_pos hkindb, chainInputs]
      rcases hbrk with hlast | hpool
      · have hnil : comps.drop (i + 1) = [] := List.drop_eq_nil_of_le (by omega)
        rw [hnil]
        rfl
      · have h1 : i + 1 < comps.length := by
          rcases Nat.lt_or_ge (i + 1) comps.length with h1 | h1
          · exact h1
          · rw [List.getElem?_eq_none (by omega)] at hpool
            simp at hpool
        have hdrop1 : comps.drop (i + 1) =
            comps.get ⟨i + 1, h1⟩ :: comps.drop (i + 2) :=
          List.drop_eq_getElem_cons h1
        have hkind1 : (comps.get ⟨i + 1, h1⟩).kind = CKind.pooler := by
          rw [List.getElem?_eq_getElem h1] at hpool
          simpa using hpool
        rw [hdrop1, List.takeWhile_cons, if_neg (by simpa using hkind1)]
        rfl
    · rw [if_neg hbrk, hdrop, List.takeWhile_cons, if_pos hkindb]
      push_neg at hbrk
      have h1 : i + 1 < comps.length := by omega
      have hkind1 : (comps.get ⟨i + 1, h1⟩).kind ≠ CKind.pooler := by
        intro hcon
        exact hbrk.2 (by rw [List.getElem?_eq_getElem h1]; simpa using hcon)
      rw [chainInputs, IH (comps.length - (i + 1)) (by omega) (i + 1)
        ((comps.get ⟨i, h⟩).proc x) rfl h1 hkind1]

theorem chainInputs_mem (cs : List (PComp α)) :
    ∀ x i0 p, p ∈ chainInputs cs x i0 →
      i0 ≤ p.1 ∧ p.1 - i0 < cs.length := by
  induction cs with
  | nil => intro x i0 p hp; simp [chainInputs] at hp
  | cons c rest ih =>
    intro x i0 p hp
    rw [chainInputs, List.mem_cons] at hp
    rcases hp with hp | hp
    · subst hp; simp
    · have := ih (c.proc x) (i0 + 1) p hp
      constructor <;> [omega; skip]
      simp only [List.length_cons]
      omega

/-- C6: for every non-empty component list, `ConvLayer.train` errors iff the
first component is not an `Extractor`; otherwise it trains exactly the
components after the extractor, in order, stopping before the first
`Pooler` (or at the end of the list), feeding each trainee the previous
non-final trainee's processed output; no `Pooler`, and no component at or
after the first `Pooler`, is ever trained. -/
theorem convLayer_train_protocol (comps : List (PComp α)) (sampled : α) :
    (∀ c0, comps[0]? = some c0 → c0.kind ≠ CKind.extractor →
      convTrain comps sampled =
        .error (.valueError "The first component should be a patch extractor!")) ∧
    (∀ c0, comps[0]? = some c0 → c0.kind = CKind.extractor →
      convTrain comps sampled = .ok (specTrainTrace comps sampled)) ∧
    (∀ tr, convTrain comps sampled = .ok tr → ∀ p ∈ tr,
      1 ≤ p.1 ∧ ∀ j (hj : j < comps.length), 1 ≤ j → j ≤ p.1 →
        (comps.get ⟨j, hj⟩).kind ≠ CKind.pooler) := by
  have hlen0 : ∀ c0 : PComp α, comps[0]? = some c0 → comps.length ≠ 0 := by
    intro c0 hc0 hl
    rw [List.getElem?_eq_none (by omega)] at hc0
    exact Option.noConfusion hc0
  refine ⟨?_, ?_, ?_⟩
  · intro c0 hc0 hk
    unfold convTrain
    rw [if_neg (hlen0 c0 hc0), if_pos]
    rw [hc0]
    simpa using hk
  · intro c0 hc0 hkE
    unfold convTrain
    rw [if_neg (hlen0 c0 hc0), if_neg (by rw [hc0]; simp [hkE])]
    by_cases hearly : comps.length = 1 ∨
        (comps[1]?).map PComp.kind = some CKind.pooler
    · rw [if_pos hearly]
      unfold specTrainTrace
      rcases hearly with hlen1 | hpool
      · rw [List.drop_eq_nil_of_le (by omega)]
        rfl
      · have h1 : 1 < comps.length := by
          rcases Nat.lt_or_ge 1 comps.length with h1 | h1
          · exact h1
          · rw [List.getElem?_eq_none (by omega)] at hpool
            simp at hpool
        rw [List.drop_eq_getElem_cons h1, List.takeWhile_cons, if_neg]
        · rfl
        · rw [List.getElem?_eq_getElem h1] at hpool
          simp at hpool
          simp [List.get_eq_getElem, hpool]
    · rw [if_neg hearly]
      push_neg at hearly
      have h1 : 1 < comps.length := by
        have := hlen0 c0 hc0
        omega
      have hk1 : (comps.get ⟨1, h1⟩).kind ≠ CKind.pooler := by
        intro hcon
        exact hearly.2 (by rw [List.getElem?_eq_getElem h1]; simpa using hcon)
      rw [trainLoop_eq_chainInputs comps (comps.length - 1) 1 sampled rfl h1 hk1]
      rfl
  · intro tr htr p hp
    unfold convTrain at htr
    by_cases h0 : comps.length = 0
    · rw [if_pos h0] at htr
      cases htr
      simp at hp
    · rw [if_neg h0] at htr
      by_cases h1 : (comps[0]?).map PComp.kind ≠ some CKind.extractor
      · rw [if_pos h1] at htr
        exact Except.noConfusion htr
      · rw [if_neg h1] at htr
        by_cases h2 : comps.length = 1 ∨
            (comps[1]?).map PComp.kind = some CKind.pooler
        · rw [if_pos h2] at htr
          cases htr
          simp at hp
        · rw [if_neg h2] at htr
          cases htr
          push_neg at h2
          have hl1 : 1 < comps.length := by omega
          have hk1 : (comps.get ⟨1, hl1⟩).kind ≠ CKind.pooler := by
            intro hcon
            exact h2.2 (by rw [List.getElem?_eq_getElem hl1]; simpa using hcon)
          rw [trainLoop_eq_chainInputs comps (comps.length - 1) 1 sampled rfl
            hl1 hk1] at hp
          obtain ⟨hge, hlt⟩ := chainInputs_mem _ _ _ _ hp
          refine ⟨hge, ?_⟩
          intro j hj hj1 hjp
          have hjtw : j - 1 < ((comps.drop 1).takeWhile
              (fun c => c.kind != CKind.pooler)).length := by omega
          have hjd : j - 1 < (comps.drop 1).length :=
            lt_of_lt_of_le hjtw (List.takeWhile_prefix _).length_le
          have hpred := List.mem_takeWhile_imp
            (List.get_mem
              ((comps.drop 1).takeWhile (fun c => c.kind != CKind.pooler))
              (j - 1) hjtw)
          rw [List.get_eq_getElem, (List.takeWhile_prefix _).getElem hjtw]
            at hpred
          rw [List.getElem_drop] at hpred
          intro hcon
          rw [List.get_eq_getElem] at hcon
          have h1j : (1 + (j - 1)) = j := by omega
          simp only [h1j] at hpred
          rw [bne_iff_ne] at hpred
          exact hpred hcon

/-- Witness for C6: the layer `[Extractor, Encoder(succ), Pooler]` trains
exactly the encoder, on the sampled batch `0`. -/
theorem convLayer_train_protocol_witness :
    convTrain (α := ℕ)
        [⟨CKind.extractor, id⟩, ⟨CKind.encoder, Nat.succ⟩, ⟨CKind.pooler, id⟩] 0 =
      Except.ok [(1, 0)] := by
  have h := (convLayer_train_protocol (α := ℕ)
      [⟨CKind.extractor, id⟩, ⟨CKind.encoder, Nat.succ⟩, ⟨CKind.pooler, id⟩]
      0).2.1 ⟨CKind.extractor, id⟩ rfl rfl
  rw [h]
  rfl

/-! ## ReservoirSampler  (mathutil.py lines 104-162)

```python
def __init__(self, num_samples):
    self._num_samples = num_samples
    self._current = 0
    self._data = None
def consider(self, feature):
    if self._data is None:
        self._data = np.empty((self._num_samples,) + feature.shape[1:], ...)
    elif self._data.shape[1:] != feature.shape[1:]:
        raise ValueError(...)
    batch_size = feature.shape[0]
    if self._current >= self._num_samples:
        selected = np.random.rand(batch_size) < \
                (num_samples / np.arange(current+1, current+batch_size+1))
        count = selected.sum()
        self._data[np.random.randint(num_samples, size=count)] = feature[selected]
        self._current += batch_size
    else:
        count = min(self._num_samples - self._current, batch_size)
        self._data[self._current:self._current+count] = feature[:count]
        self._current += count
        if count < batch_size:
            self.consider(feature[count:])
```

A batch is a row list plus its trailing feature shape (modelled as the
flattened row width `dim`); rows are `List ℚ`.  `np.empty` yields an
uninitialised buffer: the model fills it from an arbitrary `junk`
function which the theorems quantify over, so nothing proved can depend
on unwritten slots.  The coin flips `rand < num_samples/(current+i)` and
the slot draws `randint(num_samples)` are modelled by oracle streams
`sel : Nat → Bool` and `slot : Nat → Nat` (every execution of the
Python code corresponds to some pair of streams; the recursive call
consumes fresh draws, modelled by shifting the streams). -/

structure RBatch where
  dim : Nat
  rows : List (List ℚ)

structure RSampler where
  num_samples : Nat
  current : Nat
  data : Option (Nat × List (List ℚ))

def RSampler.init (ns : Nat) : RSampler := ⟨ns, 0, none⟩

/-- `self._data[self._current:self._current+count] = feature[:count]`:
write the rows sequentially starting at a position. -/
def writeSeq (buf : List (List ℚ)) (pos : Nat) : List (List ℚ) → List (List ℚ)
  | [] => buf
  | r :: rest => writeSeq (buf.set pos r) (pos + 1) rest

/-- `self._data[np.random.randint(num_samples, size=count)] = feature[selected]`:
numpy fancy assignment writes the selected rows one by one (with repeated
target indices, the later write wins), the `r`-th selected row to slot
`slot r`. -/
def overwriteSel (slot : Nat → Nat) (k : Nat) (buf : List (List ℚ)) :
    List (List ℚ) → List (List ℚ)
  | [] => buf
  | r :: rest => overwriteSel slot (k + 1) (buf.set (slot k) r) rest

/-- Row positions of the batch kept by the acceptance test. -/
def selectRows (sel : Nat → Bool) (rows : List (List ℚ)) : List (List ℚ) :=
  ((rows.enum).filter (fun pr => sel pr.1)).map Prod.snd

/-- The body of `consider` after the allocation/shape check, returning the
updated `(current, buffer)` pair. -/
def considerCore (ns : Nat) (sel : Nat → Bool) (slot : Nat → Nat)
    (current : Nat) (buf : List (List ℚ)) (rows : List (List ℚ)) :
    Nat × List (List ℚ) :=
  if current ≥ ns then
    (current + rows.length, overwriteSel slot 0 buf (selectRows sel rows))
  else
    -- `count := min (ns - current) rows.length`, inlined below
    if _h : min (ns - current) rows.length < rows.length then
      considerCore ns
        (fun i => sel (i + min (ns - current) rows.length))
        (fun i => slot (i + min (ns - current) rows.length))
        (current + min (ns - current) rows.length)
        (writeSeq buf current (rows.take (min (ns - current) rows.length)))
        (rows.drop (min (ns - current) rows.length))
    else
      (current + min (ns - current) rows.length,
       writeSeq buf current (rows.take (min (ns - current) rows.length)))
termination_by rows.length
decreasing_by simp only [List.length_drop]; omega

def RSampler.consider (s : RSampler) (junk : Nat → List ℚ) (sel : Nat → Bool)
    (slot : Nat → Nat) (b : RBatch) : Except PipeError RSampler :=
  match s.data with
  | none =>
    let buf0 := (List.range s.num_samples).map junk
    let out := considerCore s.num_samples sel slot s.current buf0 b.rows
    .ok ⟨s.num_samples, out.1, some (b.dim, out.2)⟩
  | some (dim, buf) =>
    if dim ≠ b.dim then
      .error (.valueError "Input data has the wrong size")
    else
      let out := considerCore s.num_samples sel slot s.current buf b.rows
      .ok ⟨s.num_samples, out.1, some (dim, out.2)⟩

def RSampler.num_considered (s : RSampler) : Nat := s.current

def RSampler.get (s : RSampler) : Option (List (List ℚ)) :=
  s.data.map (fun pr =>
    if s.current < s.num_samples then pr.2.take s.current else pr.2)

/-- One `consider()` call together with its random draws (and the content
of the uninitialised allocation, in case this is the first call). -/
structure RCall where
  junk : Nat → List ℚ
  sel : Nat → Bool
  slot : Nat → Nat
  batch : RBatch

def runConsiders : RSampler → List RCall → Except PipeError RSampler
  | s, [] => .ok s
  | s, c :: rest =>
    (s.consider c.junk c.sel c.slot c.batch).bind (fun s2 => runConsiders s2 rest)

theorem overwriteSel_length (slot : Nat → Nat) :
    ∀ (rs : List (List ℚ)) (k : Nat) (buf : List (List ℚ)),
      (overwriteSel slot k buf rs).length = buf.length := by
  intro rs
  induction rs with
  | nil => intro k buf; rfl
  | cons r rest ih =>
    intro k buf
    rw [overwriteSel, ih]
    simp

theorem overwriteSel_mem (slot : Nat → Nat) :
    ∀ (rs : List (List ℚ)) (k : Nat) (buf : List (List ℚ)) (x : List ℚ),
      x ∈ overwriteSel slot k buf rs → x ∈ buf ∨ x ∈ rs := by
  intro rs
  induction rs with
  | nil => intro k buf x hx; exact Or.inl hx
  | cons r rest ih =>
    intro k buf x hx
    rw [overwriteSel] at hx
    rcases ih (k + 1) (buf.set (slot k) r) x hx with hset | hrest
    · rcases List.mem_or_eq_of_mem_set hset with hbuf | hr
      · exact Or.inl hbuf
      · exact Or.inr (by simp [hr])
    · exact Or.inr (List.mem_cons_of_mem r hrest)

theorem selectRows_subset (sel : Nat → Bool) (rows : List (List ℚ)) (x : List ℚ)
    (hx : x ∈ selectRows sel rows) : x ∈ rows := by
  unfold selectRows at hx
  rcases List.mem_map.mp hx with ⟨pr, hpr, hx2⟩
  have hpe : pr ∈ rows.enum := List.mem_of_mem_filter hpr
  rw [List.mem_enum_iff_getElem?] at hpe
  rw [← hx2]
  exact List.getElem?_mem hpe

theorem writeSeq_length :
    ∀ (xs : List (List ℚ)) (buf : List (List ℚ)) (pos : Nat),
      (writeSeq buf pos xs).length = buf.length := by
  intro xs
  induction xs with
  | nil => intro buf pos; rfl
  | cons x rest ih =>
    intro buf pos
    rw [writeSeq, ih]
    simp

theorem take_succ_set (x : List ℚ) :
    ∀ (buf : List (List ℚ)) (pos : Nat), pos < buf.length →
      (buf.set pos x).take (pos + 1) = buf.take pos ++ [x] := by
  intro buf
  induction buf with
  | nil => intro pos h; simp at h
  | cons b bs ih =>
    intro pos h
    cases pos with
    | zero => simp
    | succ p =>
      rw [List.set_cons_succ, List.take_succ_cons, List.take_succ_cons,
        ih p (by simpa using h)]
      rfl

theorem writeSeq_take :
    ∀ (xs buf : List (List ℚ)) (pos : Nat), pos + xs.length ≤ buf.length →
      (writeSeq buf pos xs).take (pos + xs.length) = buf.take pos ++ xs := by
  intro xs
  induction xs with
  | nil => intro buf pos h; simp [writeSeq]
  | cons x rest ih =>
    intro buf pos h
    rw [writeSeq]
    have hlen : (pos + 1) + rest.length ≤ (buf.set pos x).length := by
      simp only [List.length_set]
      simp only [List.length_cons] at h
      omega
    have hps : pos + (x :: rest).length = (pos + 1) + rest.length := by
      simp [Nat.add_comm, Nat.add_assoc]
      omega
    rw [hps, ih (buf.set pos x) (pos + 1) hlen,
      take_succ_set x buf pos (by simp only [List.length_cons] at h; omega)]
    simp

theorem get_mem_take (l : List (List ℚ)) (n i : Nat) (hb : i < l.length)
    (hi : i < n) : l.get ⟨i, hb⟩ ∈ l.take n := by
  have hi2 : i < (l.take n).length := by
    simp only [List.length_take]
    omega
  have hmem := List.get_mem (l.take n) i hi2
  have heq : (l.take n).get ⟨i, hi2⟩ = l.get ⟨i, hb⟩ := by
    simp [List.getElem_take]
  rwa [heq] at hmem

/-- The four-part postcondition of `considerCore`, relative to the list of
rows considered before the call. -/
theorem considerCore_spec (ns : Nat) :
    ∀ (N : Nat) (rows : List (List ℚ)) (sel : Nat → Bool) (slot : Nat → Nat)
      (current : Nat) (buf considered : List (List ℚ)),
    rows.length ≤ N →
    buf.length = ns →
    current = considered.length →
    (∀ i (hb : i < buf.length), i < min current ns → buf.get ⟨i, hb⟩ ∈ considered) →
    (current < ns → buf.take current = considered) →
    (considerCore ns sel slot current buf rows).1 = current + rows.length ∧
    (considerCore ns sel slot current buf rows).2.length = ns ∧
    (∀ i (hb : i < (considerCore ns sel slot current buf rows).2.length),
        i < min (considerCore ns sel slot current buf rows).1 ns →
        (considerCore ns sel slot current buf rows).2.get ⟨i, hb⟩ ∈
          considered ++ rows) ∧
    ((considerCore ns sel slot current buf rows).1 < ns →
        (considerCore ns sel slot current buf rows).2.take
          (considerCore ns sel slot current buf rows).1 = considered ++ rows) := by
  intro N
  induction N with
  | zero =>
    intro rows sel slot current buf considered hN hbuf hcur hmem hpre
    have hrows : rows = [] := List.length_eq_zero.mp (Nat.le_zero.mp hN)
    subst hrows
    rw [considerCore]
    by_cases hfull : current ≥ ns
    · rw [if_pos hfull]
      refine ⟨by simp, by simp [overwriteSel_length, selectRows, hbuf], ?_, ?_⟩
      · intro i hb hi
        simp only [selectRows, List.enum_nil, List.filter_nil, List.map_nil,
          overwriteSel] at hb hi ⊢
        exact List.mem_append_left _ (hmem i hb (by omega))
      · intro hlt
        omega
    · rw [if_neg hfull, dif_neg (by simp only [List.length_nil]; omega)]
      have hmin : min (ns - current) (List.length ([] : List (List ℚ))) = 0 := by
        simp only [List.length_nil]
        omega
      rw [hmin]
      simp only [List.take_zero, writeSeq, Nat.add_zero, List.append_nil,
        List.length_nil]
      exact ⟨trivial, hbuf, fun i hb hi => hmem i hb (by omega),
        fun h => hpre (by omega)⟩
  | succ N IH =>
    intro rows sel slot current buf considered hN hbuf hcur hmem hpre
    rw [considerCore]
    by_cases hfull : current ≥ ns
    · rw [if_pos hfull]
      refine ⟨rfl, by simp [overwriteSel_length, hbuf], ?_,
        fun h => absurd (show current + rows.length < ns from h) (by omega)⟩
      intro i hb hi
      have hx := List.get_mem (overwriteSel slot 0 buf (selectRows sel rows)) i hb
      rcases overwriteSel_mem slot (selectRows sel rows) 0 buf _ hx with hy | hy
      · rcases List.mem_iff_get.mp hy with ⟨j, hj⟩
        have hjlt : (j : Nat) < min current ns := by
          have := j.isLt
          omega
        rw [← hj]
        exact List.mem_append_left _ (hmem j j.isLt hjlt)
      · exact List.mem_append_right _ (selectRows_subset sel rows _ hy)
    · rw [if_neg hfull]
      have hc_le : min (ns - current) rows.length ≤ rows.length := Nat.min_le_right _ _
      have hcur_lt : current < ns := by omega
      have htake_len : (rows.take (min (ns - current) rows.length)).length =
          min (ns - current) rows.length := by
        simp [List.length_take]
      have hw2len : (writeSeq buf current
          (rows.take (min (ns - current) rows.length))).length = ns := by
        rw [writeSeq_length, hbuf]
      have htake : (writeSeq buf current
            (rows.take (min (ns - current) rows.length))).take
              (current + min (ns - current) rows.length) =
          considered ++ rows.take (min (ns - current) rows.length) := by
        have h1 := writeSeq_take (rows.take (min (ns - current) rows.length))
          buf current (by rw [hbuf, htake_len]; omega)
        rw [htake_len] at h1
        rw [h1, hpre hcur_lt]
      by_cases hrec : min (ns - current) rows.length < rows.length
      · rw [dif_pos hrec]
        have hceq : min (ns - current) rows.length = ns - current := by omega
        have hfullnext : current + min (ns - current) rows.length = ns := by omega
        have hbuf2 : (writeSeq buf current
            (rows.take (min (ns - current) rows.length))) =
            considered ++ rows.take (min (ns - current) rows.length) := by
          rw [← htake]
          rw [← List.take_length (writeSeq buf current
            (rows.take (min (ns - current) rows.length)))]
          rw [List.take_take]
          congr 1
          rw [hw2len]
          omega
        have hIH := IH (rows.drop (min (ns - current) rows.length))
          (fun i => sel (i + min (ns - current) rows.length))
          (fun i => slot (i + min (ns - current) rows.length))
          (current + min (ns - current) rows.length)
          (writeSeq buf current (rows.take (min (ns - current) rows.length)))
          (considered ++ rows.take (min (ns - current) rows.length))
          (by simp only [List.length_drop]; omega)
          hw2len
          (by rw [List.length_append, htake_len]; omega)
          (by
            intro i hb hi
            rw [← hbuf2]
            exact List.get_mem _ i hb)
          (fun h => absurd h (by omega))
        obtain ⟨h1, h2, h3, h4⟩ := hIH
        have happ : (considered ++ rows.take (min (ns - current) rows.length)) ++
            rows.drop (min (ns - current) rows.length) = considered ++ rows := by
          rw [List.append_assoc, List.take_append_drop]
        refine ⟨?_, h2, ?_, ?_⟩
        · rw [h1]
          simp only [List.length_drop]
          omega
        · intro i hb hi
          rw [← happ]
          exact h3 i hb hi
        · intro h
          rw [← happ]
          exact h4 h
      · rw [dif_neg hrec]
        have hceq : min (ns - current) rows.length = rows.length := by omega
        have hcns : current + min (ns - current) rows.length ≤ ns := by omega
        have htake2 : (writeSeq buf current
              (rows.take (min (ns - current) rows.length))).take
                (current + min (ns - current) rows.length) =
            considered ++ rows := by
          rw [htake, hceq, List.take_length]
        refine ⟨by omega, hw2len, ?_, fun _ => htake2⟩
        intro i hb hi
        rw [← htake2]
        exact get_mem_take _ _ i hb (by omega)

/-- State invariant of a sampler that has already considered `considered`:
the counter equals the number of considered rows; the buffer (once
allocated) has length `num_samples`, its first `min current num_samples`
slots hold considered rows, and before it fills up its first `current`
slots are exactly the considered rows in order. -/
def SInv (ns d : Nat) (considered : List (List ℚ)) (s : RSampler) : Prop :=
  s.num_samples = ns ∧
  s.current = considered.length ∧
  ((s.data = none ∧ considered = []) ∨
   ∃ buf, s.data = some (d, buf) ∧ buf.length = ns ∧
     (∀ i (hb : i < buf.length), i < min s.current ns →
        buf.get ⟨i, hb⟩ ∈ considered) ∧
     (s.current < ns → buf.take s.current = considered))

theorem consider_SInv (ns d : Nat) (s : RSampler) (junk : Nat → List ℚ)
    (sel : Nat → Bool) (slot : Nat → Nat) (b : RBatch)
    (considered : List (List ℚ)) (hinv : SInv ns d considered s)
    (hbd : b.dim = d) :
    ∃ s2, s.consider junk sel slot b = .ok s2 ∧
      SInv ns d (considered ++ b.rows) s2 ∧ s2.data ≠ none := by
  obtain ⟨hns, hcur, hdata⟩ := hinv
  subst hns
  rcases hdata with ⟨hnone, hemp⟩ | ⟨buf, hsome, hblen, hmem, hpre⟩
  · have spec := considerCore_spec s.num_samples b.rows.length b.rows sel slot
      s.current ((List.range s.num_samples).map junk) considered le_rfl
      (by simp) hcur
      (by
        intro i hb hi
        subst hemp
        simp only [List.length_nil] at hcur
        omega)
      (by
        intro h
        rw [hcur]
        subst hemp
        simp)
    obtain ⟨h1, h2, h3, h4⟩ := spec
    refine ⟨⟨s.num_samples,
        (considerCore s.num_samples sel slot s.current
          ((List.range s.num_samples).map junk) b.rows).1,
        some (b.dim,
          (considerCore s.num_samples sel slot s.current
            ((List.range s.num_samples).map junk) b.rows).2)⟩,
      by simp only [RSampler.consider, hnone], ?_, by simp⟩
    refine ⟨rfl, ?_, Or.inr ⟨_, by rw [hbd], h2, ?_, ?_⟩⟩
    · rw [h1, hcur, List.length_append]
    · intro i hb hi
      exact h3 i hb (by simpa [h1] using hi)
    · intro h
      exact h4 h
  · have spec := considerCore_spec s.num_samples b.rows.length b.rows sel slot
      s.current buf considered le_rfl hblen hcur
      (fun i hb hi => hmem i hb hi)
      (fun h => hpre h)
    obtain ⟨h1, h2, h3, h4⟩ := spec
    refine ⟨⟨s.num_samples,
        (considerCore s.num_samples sel slot s.current buf b.rows).1,
        some (d,
          (considerCore s.num_samples sel slot s.current buf b.rows).2)⟩,
      ?_, ?_, by simp⟩
    · simp only [RSampler.consider, hsome]
      rw [if_neg (by simp [hbd])]
    · refine ⟨rfl, ?_, Or.inr ⟨_, rfl, h2, ?_, ?_⟩⟩
      · rw [h1, hcur, List.length_append]
      · intro i hb hi
        exact h3 i hb (by simpa [h1] using hi)
      · intro h
        exact h4 h

theorem runConsiders_SInv (ns d : Nat) :
    ∀ (calls : List RCall) (s : RSampler) (considered : List (List ℚ)),
    SInv ns d considered s →
    (∀ c ∈ calls, c.batch.dim = d) →
    ∃ s2, runConsiders s calls = .ok s2 ∧
      SInv ns d (considered ++ (calls.map (fun c => c.batch.rows)).flatten) s2 ∧
      ((s.data ≠ none ∨ calls ≠ []) → s2.data ≠ none) := by
  intro calls
  induction calls with
  | nil =>
    intro s considered hinv hd
    refine ⟨s, rfl, by simpa using hinv, ?_⟩
    rintro (h | h)
    · exact h
    · exact absurd rfl h
  | cons c rest ih =>
    intro s considered hinv hd
    obtain ⟨s1, hok1, hinv1, hsome1⟩ := consider_SInv ns d s c.junk c.sel c.slot
      c.batch considered hinv (hd c (by simp))
    obtain ⟨s2, hok2, hinv2, hsome2⟩ := ih s1 (considered ++ c.batch.rows) hinv1
      (fun c2 hc2 => hd c2 (List.mem_cons_of_mem c hc2))
    refine ⟨s2, ?_, ?_, fun _ => hsome2 (Or.inl hsome1)⟩
    · rw [runConsiders, hok1]
      exact hok2
    · simpa [List.append_assoc] using hinv2

/-- C3: for a sampler of capacity `ns` and any nonempty sequence of
`consider` calls whose batches share trailing shape `d` and carry `M` rows
in total, every call succeeds, `num_considered()` afterwards is `M`, and
`get()` returns exactly `min ns M` rows, each drawn from some considered
batch; when `M < ns`, `get()` returns exactly the `M` considered rows (in
order).  The statement quantifies over the random streams and the junk
contents of the uninitialised allocation carried by each call. -/
theorem reservoirSampler_num_and_get (ns d : Nat) (calls : List RCall)
    (hd : ∀ c ∈ calls, c.batch.dim = d) (hne : calls ≠ []) :
    ∃ s2, runConsiders (RSampler.init ns) calls = .ok s2 ∧
      s2.num_considered = ((calls.map (fun c => c.batch.rows)).flatten).length ∧
      ∃ g, s2.get = some g ∧
        g.length = min ns ((calls.map (fun c => c.batch.rows)).flatten).length ∧
        (∀ r ∈ g, r ∈ (calls.map (fun c => c.batch.rows)).flatten) ∧
        (((calls.map (fun c => c.batch.rows)).flatten).length < ns →
          g = (calls.map (fun c => c.batch.rows)).flatten) := by
  obtain ⟨s2, hok, hinv, hsome⟩ := runConsiders_SInv ns d calls (RSampler.init ns)
    [] ⟨rfl, rfl, Or.inl ⟨rfl, rfl⟩⟩ hd
  obtain ⟨hns, hcur, hdata⟩ := hinv
  simp only [List.nil_append] at hcur hdata
  rcases hdata with ⟨hnone, _⟩ | ⟨buf, hsome2, hblen, hmem, hpre⟩
  · exact absurd hnone (hsome (Or.inr hne))
  · refine ⟨s2, hok, hcur, ?_⟩
    by_cases hlt : ((calls.map (fun c => c.batch.rows)).flatten).length < ns
    · refine ⟨(calls.map (fun c => c.batch.rows)).flatten, ?_, ?_, ?_, fun _ => rfl⟩
      · simp only [RSampler.get, hsome2, Option.map_some']
        rw [if_pos (show s2.current < s2.num_samples by omega), hpre (by omega)]
      · omega
      · intro r hr
        exact hr
    · refine ⟨buf, ?_, by omega, ?_, fun h => absurd h hlt⟩
      · simp only [RSampler.get, hsome2, Option.map_some']
        rw [if_neg (show ¬ s2.current < s2.num_samples by omega)]
      · intro r hr
        rcases List.mem_iff_get.mp hr with ⟨j, hj⟩
        rw [← hj]
        exact hmem j j.isLt (by have := j.isLt; omega)

/-- Witness for C3: capacity 1, one call with one row `[5]`. -/
theorem reservoirSampler_num_and_get_witness :
    ∃ s2, runConsiders (RSampler.init 1)
        [⟨fun _ => [], fun _ => false, fun _ => 0, ⟨1, [[(5 : ℚ)]]⟩⟩] =
          .ok s2 ∧
      s2.num_considered = 1 := by
  obtain ⟨s2, h1, h2, _⟩ := reservoirSampler_num_and_get 1 1
    [⟨fun _ => [], fun _ => false, fun _ => 0, ⟨1, [[(5 : ℚ)]]⟩⟩]
    (by intro c hc; rw [List.mem_singleton] at hc; subst hc; rfl)
    (by simp)
  exact ⟨s2, h1, by simpa using h2⟩

/-! ## gemm  (mathutil.py lines 4-55)

```python
if not B.flags['F_CONTIGUOUS']:
    B = B.T
    trans_b=0
else:
    trans_b=1
if not A.flags['F_CONTIGUOUS']:
    A = A.T
    trans_a=0
else:
    trans_a=1
...
return fblas_gemm(alpha,B,A,trans_a=trans_b,trans_b=trans_a).T
```

A 2-D numpy array is a flat buffer plus shape and storage order; the
model keeps the buffer as a function `Nat → ℚ` so that `.T` is pure
index reinterpretation (dims swapped, order flag flipped, same buffer —
no copy), exactly as in numpy.  A contiguous array with a degenerate
dimension (`rows ≤ 1` or `cols ≤ 1`) carries both contiguity flags, as
in numpy.  The dtype checks of the source are outside the `ℚ` model,
and the rank/contiguity checks always pass because `NpMat` represents
exactly the contiguous 2-D arrays the claim quantifies over. -/

inductive MOrder where
  | corder
  | forder
deriving DecidableEq

structure NpMat where
  rows : Nat
  cols : Nat
  data : Nat → ℚ
  order : MOrder

/-- Logical entry `(i, j)`, reading the flat buffer per the storage order. -/
def NpMat.entry (M : NpMat) (i j : Nat) : ℚ :=
  match M.order with
  | .corder => M.data (i * M.cols + j)
  | .forder => M.data (j * M.rows + i)

/-- `.T`: swap dims, flip the order flag, share the buffer. -/
def NpMat.transpose (M : NpMat) : NpMat :=
  ⟨M.cols, M.rows, M.data,
    match M.order with | .corder => .forder | .forder => .corder⟩

/-- numpy's `F_CONTIGUOUS` flag for a contiguous 2-D array. -/
def NpMat.fflag (M : NpMat) : Bool :=
  (M.order == .forder) || decide (M.rows ≤ 1) || decide (M.cols ≤ 1)

/-- Reinterpret the buffer in Fortran order (what the BLAS kernel does with
the memory it is handed). -/
def NpMat.asF (M : NpMat) : NpMat := { M with order := .forder }

/-- `scipy.linalg.fblas.{s,d}gemm(alpha, a, b, trans_a, trans_b)` (external
BLAS kernel): reads both buffers in Fortran order, computes
`alpha·op(a)·op(b)` and returns it as a Fortran-ordered matrix. -/
def fblasGemm (alpha : ℚ) (a b : NpMat) (ta tb : Bool) : NpMat :=
  -- result dims: `op(a)` is `(if ta then a.cols else a.rows) × k`,
  -- `op(b)` is `k × (if tb then b.rows else b.cols)`
  ⟨if ta then a.cols else a.rows,
   if tb then b.rows else b.cols,
   fun idx =>
      alpha * ∑ l ∈ Finset.range (if ta then a.rows else a.cols),
        (if ta then a.asF.entry l (idx % (if ta then a.cols else a.rows))
         else a.asF.entry (idx % (if ta then a.cols else a.rows)) l) *
          (if tb then b.asF.entry (idx / (if ta then a.cols else a.rows)) l
           else b.asF.entry l (idx / (if ta then a.cols else a.rows))),
   .forder⟩

/-- The per-operand normalisation of `gemm`: an operand that is not
F-contiguous is replaced by its transpose view with transpose flag 0,
otherwise kept with transpose flag 1. -/
def normOp (M : NpMat) : NpMat × Bool :=
  if M.fflag then (M, true) else (M.transpose, false)

/-- `gemm(alpha, A, B)` (the `out=None` path): `(alpha·Bᵗ·Aᵗ)ᵗ` via the
BLAS kernel, so that the result's transpose view is C-ordered. -/
def gemm (alpha : ℚ) (A B : NpMat) : NpMat :=
  (fblasGemm alpha (normOp B).1 (normOp A).1 (normOp B).2 (normOp A).2).transpose

theorem entry_asF (M : NpMat) (hf : M.fflag = true) (i j : Nat)
    (hi : i < M.rows) (hj : j < M.cols) : M.asF.entry i j = M.entry i j := by
  unfold NpMat.fflag at hf
  unfold NpMat.asF NpMat.entry
  rcases ho : M.order with _ | _
  · simp [ho] at hf
    have hcase : (M.rows = 1 ∧ i = 0) ∨ (M.cols = 1 ∧ j = 0) := by omega
    rcases hcase with ⟨h1, h2⟩ | ⟨h1, h2⟩
    · subst h2
      simp [h1]
    · subst h2
      simp [h1]
  · simp [ho]

/-- After normalisation, the fblas `op` of an operand is its logical
transpose: `op(norm M) p q = M.entry q p`. -/
theorem normOp_entry (M : NpMat) (p q : Nat) (hp : p < M.cols) (hq : q < M.rows) :
    (if (normOp M).2 then (normOp M).1.asF.entry q p
      else (normOp M).1.asF.entry p q) = M.entry q p := by
  unfold normOp
  by_cases hf : M.fflag
  · rw [if_pos hf]
    simp only [if_pos]
    exact entry_asF M hf q p hq hp
  · rw [if_neg hf]
    simp only [Bool.false_eq_true, if_neg, not_false_eq_true]
    have ho : M.order = .corder := by
      unfold NpMat.fflag at hf
      rcases h : M.order with _ | _
      · rfl
      · simp [h] at hf
    unfold NpMat.asF NpMat.transpose NpMat.entry
    simp only [ho]

theorem normOp_fst_dim1 (M : NpMat) :
    (if (normOp M).2 then (normOp M).1.cols else (normOp M).1.rows) = M.cols := by
  unfold normOp
  by_cases hf : M.fflag
  · simp [hf]
  · simp [hf, NpMat.transpose]

theorem normOp_fst_dim2 (M : NpMat) :
    (if (normOp M).2 then (normOp M).1.rows else (normOp M).1.cols) = M.rows := by
  unfold normOp
  by_cases hf : M.fflag
  · simp [hf]
  · simp [hf, NpMat.transpose]

theorem transpose_entry_corder (P : NpMat) (hP : P.order = .forder) (i j : Nat) :
    P.transpose.entry i j = P.entry j i := by
  unfold NpMat.transpose NpMat.entry
  simp [hP]

theorem fblasGemm_entry (alpha : ℚ) (a b : NpMat) (ta tb : Bool) (r c : Nat)
    (hr : r < (if ta then a.cols else a.rows)) :
    (fblasGemm alpha a b ta tb).entry r c =
      alpha * ∑ l ∈ Finset.range (if ta then a.rows else a.cols),
        (if ta then a.asF.entry l r else a.asF.entry r l) *
          (if tb then b.asF.entry c l else b.asF.entry l c) := by
  set m := if ta then a.cols else a.rows with hm_def
  have h1 : (c * m + r) % m = r := by
    rw [Nat.mul_comm c m, Nat.mul_add_mod]
    exact Nat.mod_eq_of_lt hr
  have h2 : (c * m + r) / m = c := by
    rw [Nat.mul_comm c m, Nat.mul_add_div (by omega)]
    simp [Nat.div_eq_of_lt hr]
  show (fblasGemm alpha a b ta tb).data (c * m + r) = _
  unfold fblasGemm
  simp only [← hm_def, h1, h2]

/-- C2: for compatible contiguous matrices `A` (m×k) and `B` (k×n), in any
of the four storage-order combinations, `gemm alpha A B` has shape m×n, is
C-ordered (row-major) regardless of the input layouts, and its `(i,j)`
entry is the naive triple-loop product `alpha * ∑ l, A i l * B l j`. -/
theorem gemm_eq_naive_product (alpha : ℚ) (A B : NpMat) (hk : A.cols = B.rows)
    (i j : Nat) (hi : i < A.rows) (hj : j < B.cols) :
    (gemm alpha A B).rows = A.rows ∧
    (gemm alpha A B).cols = B.cols ∧
    (gemm alpha A B).order = .corder ∧
    (gemm alpha A B).entry i j =
      alpha * ∑ l ∈ Finset.range A.cols, A.entry i l * B.entry l j := by
  have hd1B := normOp_fst_dim1 B
  have hd2B := normOp_fst_dim2 B
  have hd2A := normOp_fst_dim2 A
  refine ⟨?_, ?_, ?_, ?_⟩
  · show (fblasGemm alpha (normOp B).1 (normOp A).1 (normOp B).2 (normOp A).2).cols
        = A.rows
    unfold fblasGemm
    exact hd2A
  · show (fblasGemm alpha (normOp B).1 (normOp A).1 (normOp B).2 (normOp A).2).rows
        = B.cols
    unfold fblasGemm
    exact hd1B
  · rfl
  · rw [show gemm alpha A B =
        (fblasGemm alpha (normOp B).1 (normOp A).1 (normOp B).2
          (normOp A).2).transpose from rfl]
    rw [transpose_entry_corder _ rfl i j]
    rw [fblasGemm_entry alpha (normOp B).1 (normOp A).1 (normOp B).2 (normOp A).2
      j i (by rw [hd1B]; exact hj)]
    rw [hd2B]
    rw [hk]
    congr 1
    apply Finset.sum_congr rfl
    intro l hl
    rw [Finset.mem_range, ← hk] at hl
    rw [normOp_entry B j l hj (by rw [hk] at hl; exact hl),
      normOp_entry A l i hl hi]
    ring

/-- Witness for C2: `A = [[0,1],[2,3]]` row-major times
`B = [[1,3],[2,4]]` column-major; entry `(0,1)` of the product is `4`
and the result is row-major. -/
theorem gemm_eq_naive_product_witness :
    (gemm 1 ⟨2, 2, fun idx => (idx : ℚ), .corder⟩
        ⟨2, 2, fun idx => (idx : ℚ) + 1, .forder⟩).entry 0 1 = 4 ∧
    (gemm 1 ⟨2, 2, fun idx => (idx : ℚ), .corder⟩
        ⟨2, 2, fun idx => (idx : ℚ) + 1, .forder⟩).order = .corder := by
  obtain ⟨h1, h2, h3, h4⟩ := gemm_eq_naive_product 1
    ⟨2, 2, fun idx => (idx : ℚ), .corder⟩
    ⟨2, 2, fun idx => (idx : ℚ) + 1, .forder⟩ rfl 0 1 (by norm_num) (by norm_num)
  refine ⟨?_, h3⟩
  rw [h4]
  norm_num [NpMat.entry, Finset.sum_range_succ]

/-! ## PcaTrainer / ZcaTrainer  (pipeline.py lines 476-499)

```python
def train(self, incoming_patches):                    # PcaTrainer
    m, covmat = mathutil.mpi_meancov(incoming_patches)
    if mpi.is_root():
        eigval, eigvec = np.linalg.eigh(covmat)
        reg = self.specs.get('reg', np.finfo(np.float64).eps)
        W = eigvec * 1.0 / (np.sqrt(np.maximum(eigval, 0.0)) + reg)
    else:
        eigval, eigvec, W = None, None, None
    W = mpi.COMM.bcast(W); eigval = ...; eigvec = ...
    return (W, -m), (eigval, eigvec, covmat)

def train(self, incoming_patches):                    # ZcaTrainer
    (W, b), (eigval, eigvec, covmat) = PcaTrainer.train(self, incoming_patches)
    W = np.dot(W, eigvec.T)
    return (W, b), (eigval, eigvec, covmat)
```

The model is the single-worker instance: `is_root()` is true and `bcast`
is the identity.  `np.linalg.eigh` and `np.sqrt` are external numeric
primitives, modelled as oracle functions the theorem quantifies over.
The numpy broadcast `eigvec * v` (a row vector scaling each column) is
the matrix product `eigvec ⬝ diag v`, which is what the theorem states. -/

/-- `np.finfo(np.float64).eps`. -/
def macheps : ℚ := 1 / 2 ^ 52

/-- Modelled from the spec: `mathutil.mpi_meancov`, called by
`PcaTrainer.train`, is not in the provided source (`src/mathutil.py` has
only `mpi_mean`/`mpi_std`/`mpi_cov`).  Spec §4.2: the global mean is the
column mean (local row sums, allreduce, divide by the global count — the
identity on one worker), and the global covariance is the centered Gram
matrix over the global count: `(data-m)ᵗ(data-m) / n`. -/
def mpi_meancov (data : Matrix (Fin m) (Fin p) ℚ) :
    (Fin p → ℚ) × Matrix (Fin p) (Fin p) ℚ :=
  (fun j => (∑ i, data i j) / m,
   Matrix.of fun j k =>
     (∑ i, (data i j - (∑ i2, data i2 j) / m) *
        (data i k - (∑ i2, data i2 k) / m)) / m)

structure PcaSpecs where
  reg : Option ℚ

def pcaTrain
    (eigh : Matrix (Fin p) (Fin p) ℚ → (Fin p → ℚ) × Matrix (Fin p) (Fin p) ℚ)
    (sqrt : ℚ → ℚ) (specs : PcaSpecs) (data : Matrix (Fin m) (Fin p) ℚ) :
    (Matrix (Fin p) (Fin p) ℚ × (Fin p → ℚ)) ×
      ((Fin p → ℚ) × Matrix (Fin p) (Fin p) ℚ × Matrix (Fin p) (Fin p) ℚ) :=
  ((Matrix.of fun i j =>
      (eigh (mpi_meancov data).2).2 i j *
        (1 / (sqrt (max ((eigh (mpi_meancov data).2).1 j) 0) +
          specs.reg.getD macheps)),
    fun j => -((mpi_meancov data).1 j)),
   ((eigh (mpi_meancov data).2).1, (eigh (mpi_meancov data).2).2,
    (mpi_meancov data).2))

def zcaTrain
    (eigh : Matrix (Fin p) (Fin p) ℚ → (Fin p → ℚ) × Matrix (Fin p) (Fin p) ℚ)
    (sqrt : ℚ → ℚ) (specs : PcaSpecs) (data : Matrix (Fin m) (Fin p) ℚ) :
    (Matrix (Fin p) (Fin p) ℚ × (Fin p → ℚ)) ×
      ((Fin p → ℚ) × Matrix (Fin p) (Fin p) ℚ × Matrix (Fin p) (Fin p) ℚ) :=
  (((pcaTrain eigh sqrt specs data).1.1 *
      Matrix.transpose ((pcaTrain eigh sqrt specs data).2.2.1),
    (pcaTrain eigh sqrt specs data).1.2),
   (pcaTrain eigh sqrt specs data).2)

/-- C5: with `reg` unset (defaulting to machine epsilon), `PcaTrainer.train`
returns `(eigvec ⬝ diag (1/(sqrt(max(eigval,0)) + eps)), -mean)` together
with the diagnostics `(eigval, eigvec, covmat)`, where `(mean, covmat)`
come from `mpi_meancov` (mean = column mean, covmat = centered Gram over
the count) and `(eigval, eigvec) = eigh covmat`; `ZcaTrainer.train`
returns the same with the whitening matrix multiplied by `eigvecᵗ` on the
right. -/
theorem pca_zca_train_formulas
    (eigh : Matrix (Fin p) (Fin p) ℚ → (Fin p → ℚ) × Matrix (Fin p) (Fin p) ℚ)
    (sqrt : ℚ → ℚ) (data : Matrix (Fin m) (Fin p) ℚ) :
    pcaTrain eigh sqrt ⟨none⟩ data =
      (((eigh (mpi_meancov data).2).2 *
          Matrix.diagonal (fun j =>
            1 / (sqrt (max ((eigh (mpi_meancov data).2).1 j) 0) + macheps)),
        fun j => -((mpi_meancov data).1 j)),
       ((eigh (mpi_meancov data).2).1, (eigh (mpi_meancov data).2).2,
        (mpi_meancov data).2)) ∧
    (mpi_meancov data).1 = (fun j => (∑ i, data i j) / m) ∧
    zcaTrain eigh sqrt ⟨none⟩ data =
      (((pcaTrain eigh sqrt ⟨none⟩ data).1.1 *
          Matrix.transpose ((eigh (mpi_meancov data).2).2),
        fun j => -((mpi_meancov data).1 j)),
       ((eigh (mpi_meancov data).2).1, (eigh (mpi_meancov data).2).2,
        (mpi_meancov data).2)) := by
  refine ⟨?_, rfl, rfl⟩
  have hW : (Matrix.of fun i j =>
      (eigh (mpi_meancov data).2).2 i j *
        (1 / (sqrt (max ((eigh (mpi_meancov data).2).1 j) 0) +
          (⟨none⟩ : PcaSpecs).reg.getD macheps))) =
      (eigh (mpi_meancov data).2).2 *
        Matrix.diagonal (fun j =>
          1 / (sqrt (max ((eigh (mpi_meancov data).2).1 j) 0) + macheps)) := by
    ext i j
    rw [Matrix.mul_diagonal]
    rfl
  unfold pcaTrain
  rw [hW]

/-! ## LLCEncoder.process  (pipeline.py lines 666-708)

```python
K = self.specs.get('k', 5)
reg = self.specs.get('reg', 1e-4)
D = self.dictionary
X = image.reshape((np.prod(shape), image.shape[-1]))
if 'D_norm' not in self.specs:
    self.specs['D_norm'] = (D**2).sum(1) / 2.
D_norm = self.specs['D_norm']
distance = mathutil.dot(X, -D.T)
distance += D_norm
IDX = np.argsort(distance,1)[:, :K]     # (bottleneck path: argpartsort)
coeff = np.zeros((X.shape[0], D.shape[0]))
ONES = np.ones(K)
Z = np.empty((K, D.shape[1]))
for i in range(X.shape[0]):
    Z[:] = D[IDX[i]]
    Z -= X[i]
    C = mathutil.dot(Z,Z.T)
    C.flat[::K+1] += reg * C.trace()
    w = np.linalg.solve(C,ONES)
    coeff[i][IDX[i]] = w / w.sum()
```

`np.argsort` is modelled by a stable sort of all column indices by
distance, keeping the first `K` (the bottleneck `argpartsort` path
selects the same set of `K` smallest in an implementation-defined
order; the claims depend only on the selected indices being `K` distinct
ones).  `np.linalg.solve` is modelled as the exact solve by the
adjugate, failing exactly when the matrix is singular. -/

open Matrix

/-- `(D**2).sum(1) / 2.` — half squared norm of each dictionary row. -/
def halfNorms (D : Matrix (Fin n) (Fin d) ℚ) : Fin n → ℚ :=
  fun j => (∑ t, (D j t) ^ 2) / 2

/-- `distance = dot(X, -D.T); distance += D_norm`, one input row. -/
def llcDistance (dnorm : Fin n → ℚ) (D : Matrix (Fin n) (Fin d) ℚ)
    (x : Fin d → ℚ) : Fin n → ℚ :=
  fun j => (∑ t, x t * (-(D j t))) + dnorm j

/-- `np.argsort(distance)[:K]`: stable sort of all column indices by
distance, first `K` kept (modelled with insertion sort, which is stable
and structurally recursive). -/
def llcIdx (dnorm : Fin n → ℚ) (D : Matrix (Fin n) (Fin d) ℚ)
    (x : Fin d → ℚ) (K : Nat) : List (Fin n) :=
  ((List.finRange n).insertionSort
    (fun a b => llcDistance dnorm D x a ≤ llcDistance dnorm D x b)).take K

/-- `Z[:] = D[IDX[i]]; Z -= X[i]` — the selected rows shifted to the origin. -/
def llcZ (D : Matrix (Fin n) (Fin d) ℚ) (idx : List (Fin n)) (x : Fin d → ℚ) :
    Matrix (Fin idx.length) (Fin d) ℚ :=
  Matrix.of fun i t => D (idx.get i) t - x t

/-- `C = dot(Z, Z.T)`. -/
def llcC (D : Matrix (Fin n) (Fin d) ℚ) (idx : List (Fin n)) (x : Fin d → ℚ) :
    Matrix (Fin idx.length) (Fin idx.length) ℚ :=
  llcZ D idx x * (llcZ D idx x)ᵀ

/-- `C.flat[::K+1] += reg * C.trace()` — add `reg·tr C` to the diagonal. -/
def llcCreg (D : Matrix (Fin n) (Fin d) ℚ) (idx : List (Fin n)) (x : Fin d → ℚ)
    (reg : ℚ) : Matrix (Fin idx.length) (Fin idx.length) ℚ :=
  llcC D idx x + (reg * (llcC D idx x).trace) • 1

/-- `np.linalg.solve` (external LAPACK routine): the unique solution of
`C y = v` when `C` is nonsingular, failure otherwise. -/
def npSolve (C : Matrix (Fin L) (Fin L) ℚ) (v : Fin L → ℚ) :
    Option (Fin L → ℚ) :=
  if C.det = 0 then none else some (C.det⁻¹ • (C.adjugate *ᵥ v))

/-- `coeff[i][IDX[i]] = vals` — numpy fancy assignment into a zero row,
writing the listed positions left to right. -/
def scatterRow (pairs : List (Fin n × ℚ)) : Fin n → ℚ :=
  pairs.foldl (fun f pr => Function.update f pr.1 pr.2) (fun _ => 0)

/-- One row of `LLCEncoder.process` (the body of the `for i` loop). -/
def llcCoeffRow (dnorm : Fin n → ℚ) (D : Matrix (Fin n) (Fin d) ℚ)
    (K : Nat) (reg : ℚ) (x : Fin d → ℚ) : Option (Fin n → ℚ) :=
  match npSolve (llcCreg D (llcIdx dnorm D x K) x reg) (fun _ => 1) with
  | none => none
  | some w => some (scatterRow ((llcIdx dnorm D x K).zip
      ((List.finRange (llcIdx dnorm D x K).length).map
        (fun i => w i / ∑ i2, w i2))))

/-! ### LLCEncoder as a stateful component (for C10)

`specs` is mutable state: the first `process` call stores `'D_norm'`
into it, and `FeatureEncoder.train` only replaces `self.dictionary`. -/

structure LLCEncoderSt (n d : Nat) (π μ : Type) where
  trainer : Option (π → Matrix (Fin n) (Fin d) ℚ × μ)
  dictionary : Matrix (Fin n) (Fin d) ℚ
  k : Option Nat
  reg : Option ℚ
  dnormCache : Option (Fin n → ℚ)

/-- The `D_norm` the body of `process` reads: the cache if `'D_norm'` is in
`specs`, the fresh value otherwise. -/
def LLCEncoderSt.usedDNorm (e : LLCEncoderSt n d π μ) : Fin n → ℚ :=
  match e.dnormCache with
  | some v => v
  | none => halfNorms e.dictionary

/-- `LLCEncoder.process`: returns the coefficient rows and the updated
encoder (whose specs now cache `'D_norm'`). -/
def LLCEncoderSt.process (e : LLCEncoderSt n d π μ) (X : List (Fin d → ℚ)) :
    List (Option (Fin n → ℚ)) × LLCEncoderSt n d π μ :=
  (X.map (llcCoeffRow e.usedDNorm e.dictionary (e.k.getD 5)
      (e.reg.getD (1 / 10000))),
   { e with dnormCache := some e.usedDNorm })

/-- `FeatureEncoder.train` specialised to the LLC encoder: replaces the
dictionary, touches nothing else (in particular not `specs`). -/
def LLCEncoderSt.train (e : LLCEncoderSt n d π μ) (patches : π) :
    LLCEncoderSt n d π μ :=
  match e.trainer with
  | some t => { e with dictionary := (t patches).1 }
  | none => e

/-- C10: on an encoder with no cached `'D_norm'`, the first `process` call
stores the half squared norms of the then-current dictionary under
`'D_norm'`; `train` replaces the dictionary but leaves the cache
untouched; and every later `process` selects neighbors using the stale
norms of the original dictionary together with the new dictionary (and
leaves the cache as is). -/
theorem llcEncoder_dnorm_stale (e0 : LLCEncoderSt n d π μ)
    (X0 X1 : List (Fin d → ℚ)) (t : π → Matrix (Fin n) (Fin d) ℚ × μ)
    (patches : π) (h0 : e0.dnormCache = none) (ht : e0.trainer = some t) :
    ((e0.process X0).2).dnormCache = some (halfNorms e0.dictionary) ∧
    (((e0.process X0).2).train patches).dnormCache =
      some (halfNorms e0.dictionary) ∧
    (((e0.process X0).2).train patches).dictionary = (t patches).1 ∧
    ((((e0.process X0).2).train patches).process X1).1 =
      X1.map (llcCoeffRow (halfNorms e0.dictionary) (t patches).1
        (e0.k.getD 5) (e0.reg.getD (1 / 10000))) ∧
    ((((e0.process X0).2).train patches).process X1).2.dnormCache =
      some (halfNorms e0.dictionary) := by
  simp [LLCEncoderSt.process, LLCEncoderSt.train, LLCEncoderSt.usedDNorm,
    h0, ht]

/-- Witness for C10 at a concrete 1×1 encoder retrained from `[[1]]` to
`[[2]]`. -/
theorem llcEncoder_dnorm_stale_witness :
    ((((⟨some (fun _ => (Matrix.of fun _ _ => 2, ())),
          Matrix.of fun _ _ => 1, none, none, none⟩ :
        LLCEncoderSt 1 1 Unit Unit).process []).2).train ()).dnormCache =
      some (halfNorms (n := 1) (d := 1) (Matrix.of fun _ _ => (1 : ℚ))) :=
  (llcEncoder_dnorm_stale
    ⟨some (fun _ => (Matrix.of fun _ _ => 2, ())),
      Matrix.of fun _ _ => 1, none, none, none⟩
    [] [] (fun _ => (Matrix.of fun _ _ => 2, ())) () rfl rfl).2.1

theorem llcIdx_length (dnorm : Fin n → ℚ) (D : Matrix (Fin n) (Fin d) ℚ)
    (x : Fin d → ℚ) (K : Nat) (hKn : K ≤ n) :
    (llcIdx dnorm D x K).length = K := by
  unfold llcIdx
  rw [List.length_take, (List.perm_insertionSort _ _).length_eq,
    List.length_finRange]
  omega

theorem llcIdx_nodup (dnorm : Fin n → ℚ) (D : Matrix (Fin n) (Fin d) ℚ)
    (x : Fin d → ℚ) (K : Nat) : (llcIdx dnorm D x K).Nodup := by
  unfold llcIdx
  apply List.Nodup.sublist (List.take_sublist _ _)
  exact ((List.perm_insertionSort _ (List.finRange n)).nodup_iff).mpr
    (List.nodup_finRange n)

theorem foldl_update_outside :
    ∀ (pairs : List (Fin n × ℚ)) (f : Fin n → ℚ) (j : Fin n),
      (∀ pr ∈ pairs, pr.1 ≠ j) →
      (pairs.foldl (fun g pr => Function.update g pr.1 pr.2) f) j = f j := by
  intro pairs
  induction pairs with
  | nil => intro f j _; rfl
  | cons pr rest ih =>
    intro f j h
    rw [List.foldl_cons,
      ih _ j (fun pr2 hpr2 => h pr2 (List.mem_cons_of_mem _ hpr2))]
    exact Function.update_noteq (Ne.symm (h pr (by simp))) _ _

theorem scatterRow_not_mem (pairs : List (Fin n × ℚ)) (j : Fin n)
    (h : j ∉ pairs.map Prod.fst) : scatterRow pairs j = 0 := by
  unfold scatterRow
  rw [foldl_update_outside pairs _ j]
  intro pr hpr hcon
  refine h ?_
  rw [← hcon]
  exact List.mem_map.mpr ⟨pr, hpr, rfl⟩

theorem foldl_update_sum (pairs : List (Fin n × ℚ)) :
    ∀ f : Fin n → ℚ, (pairs.map Prod.fst).Nodup →
    ∑ j, (pairs.foldl (fun g pr => Function.update g pr.1 pr.2) f) j =
      ((∑ j, f j) + (pairs.map Prod.snd).sum) -
        (pairs.map (fun pr => f pr.1)).sum := by
  induction pairs with
  | nil => intro f _; simp
  | cons pr rest ih =>
    intro f hnd
    simp only [List.map_cons, List.nodup_cons] at hnd
    obtain ⟨hni, hnd2⟩ := hnd
    rw [List.foldl_cons, ih (Function.update f pr.1 pr.2) hnd2]
    have h1 : ∑ j, Function.update f pr.1 pr.2 j =
        (∑ j, f j) - f pr.1 + pr.2 := by
      rw [Finset.sum_update_of_mem (Finset.mem_univ _),
        Finset.sum_sdiff_eq_sub (Finset.subset_univ _), Finset.sum_singleton]
      ring
    have h2 : (rest.map (fun pr2 => Function.update f pr.1 pr.2 pr2.1)).sum =
        (rest.map (fun pr2 => f pr2.1)).sum := by
      congr 1
      apply List.map_congr_left
      intro pr2 hpr2
      exact Function.update_noteq
        (fun hcon => hni (by
          rw [← hcon]
          exact List.mem_map.mpr ⟨pr2, hpr2, rfl⟩)) _ _
    rw [h1, h2]
    simp only [List.map_cons, List.sum_cons]
    ring

theorem scatterRow_sum (pairs : List (Fin n × ℚ))
    (hnd : (pairs.map Prod.fst).Nodup) :
    ∑ j, scatterRow pairs j = (pairs.map Prod.snd).sum := by
  unfold scatterRow
  rw [foldl_update_sum pairs _ hnd]
  simp

theorem npSolve_spec (C : Matrix (Fin L) (Fin L) ℚ) (v w : Fin L → ℚ)
    (h : npSolve C v = some w) : C *ᵥ w = v := by
  unfold npSolve at h
  split_ifs at h with hdet
  rw [Option.some_inj] at h
  rw [← h, Matrix.mulVec_smul, Matrix.mulVec_mulVec, Matrix.mul_adjugate,
    Matrix.smul_mulVec_assoc, Matrix.one_mulVec, smul_smul,
    inv_mul_cancel₀ hdet, one_smul]

/-- Positivity core for LLC: if `w` solves `(Z Zᵗ + reg·tr·I) w = 1` with
`reg ≥ 0` and at least one neighbor, then `∑ w ≠ 0` (the renormalisation
denominator `w.sum()` does not vanish). -/
theorem llc_wsum_ne_zero (D : Matrix (Fin n) (Fin d) ℚ) (idx : List (Fin n))
    (x : Fin d → ℚ) (reg : ℚ) (w : Fin idx.length → ℚ)
    (hreg : 0 ≤ reg) (hL : 0 < idx.length)
    (hw : llcCreg D idx x reg *ᵥ w = fun _ => 1) :
    ∑ i, w i ≠ 0 := by
  have hA : w ⬝ᵥ (llcC D idx x *ᵥ w) = (w ᵥ* llcZ D idx x) ⬝ᵥ (w ᵥ* llcZ D idx x) := by
    unfold llcC
    rw [← Matrix.mulVec_mulVec, Matrix.dotProduct_mulVec, Matrix.mulVec_transpose]
  have hS : w ⬝ᵥ (llcCreg D idx x reg *ᵥ w) = ∑ i, w i := by
    rw [hw]
    simp [dotProduct]
  have hsplit : w ⬝ᵥ (llcCreg D idx x reg *ᵥ w) =
      (w ᵥ* llcZ D idx x) ⬝ᵥ (w ᵥ* llcZ D idx x) +
        (reg * (llcC D idx x).trace) * (w ⬝ᵥ w) := by
    unfold llcCreg
    rw [Matrix.add_mulVec, Matrix.smul_mulVec_assoc, Matrix.one_mulVec,
      dotProduct_add, hA, dotProduct_smul, smul_eq_mul]
  have htr : 0 ≤ (llcC D idx x).trace := by
    unfold Matrix.trace
    apply Finset.sum_nonneg
    intro i _
    unfold Matrix.diag llcC
    rw [Matrix.mul_apply]
    apply Finset.sum_nonneg
    intro t _
    rw [Matrix.transpose_apply]
    exact mul_self_nonneg _
  have hgg : 0 ≤ (w ᵥ* llcZ D idx x) ⬝ᵥ (w ᵥ* llcZ D idx x) :=
    Finset.sum_nonneg (fun t _ => mul_self_nonneg _)
  have hww : 0 ≤ w ⬝ᵥ w := Finset.sum_nonneg (fun t _ => mul_self_nonneg _)
  intro hS0
  have h0 : (w ᵥ* llcZ D idx x) ⬝ᵥ (w ᵥ* llcZ D idx x) +
      (reg * (llcC D idx x).trace) * (w ⬝ᵥ w) = 0 := by
    rw [← hsplit, hS, hS0]
  have hc_nonneg : 0 ≤ (reg * (llcC D idx x).trace) * (w ⬝ᵥ w) :=
    mul_nonneg (mul_nonneg hreg htr) hww
  have hg0 : (w ᵥ* llcZ D idx x) ⬝ᵥ (w ᵥ* llcZ D idx x) = 0 := by linarith
  have hgz : (w ᵥ* llcZ D idx x) = 0 := by
    funext t
    have hz := (Finset.sum_eq_zero_iff_of_nonneg
      (fun t2 _ => mul_self_nonneg ((w ᵥ* llcZ D idx x) t2))).mp hg0 t
      (Finset.mem_univ t)
    exact mul_self_eq_zero.mp hz
  have hCw : llcC D idx x *ᵥ w = 0 := by
    unfold llcC
    rw [← Matrix.mulVec_mulVec, Matrix.mulVec_transpose, hgz,
      Matrix.mulVec_zero]
  have hone : (fun _ => (1 : ℚ)) = fun i => (reg * (llcC D idx x).trace) * w i := by
    rw [← hw]
    unfold llcCreg
    rw [Matrix.add_mulVec, hCw, Matrix.smul_mulVec_assoc, Matrix.one_mulVec]
    funext i
    simp
  have hsum1 := congrArg (fun v => ∑ i, v i) hone
  simp only [Finset.sum_const, Finset.card_univ, Fintype.card_fin,
    nsmul_eq_mul, mul_one, ← Finset.mul_sum] at hsum1
  rw [hS0, mul_zero] at hsum1
  have : (idx.length : ℚ) ≠ 0 := Nat.cast_ne_zero.mpr (by omega)
  exact this hsum1

/-- C4: whenever the per-row local solve of `LLCEncoder.process` succeeds
(with `0 < K ≤ n` dictionary rows and `reg ≥ 0`), the returned coefficient
row is zero outside the `K` selected nearest-neighbor indices, has at most
`K` nonzero entries, and its entries sum to 1. -/
theorem llc_coeff_sparse_and_sum_one (dnorm : Fin n → ℚ)
    (D : Matrix (Fin n) (Fin d) ℚ) (K : Nat) (reg : ℚ) (x : Fin d → ℚ)
    (c : Fin n → ℚ) (hK : 0 < K) (hKn : K ≤ n) (hreg : 0 ≤ reg)
    (hc : llcCoeffRow dnorm D K reg x = some c) :
    (∀ j, c j ≠ 0 → j ∈ llcIdx dnorm D x K) ∧
    (Finset.univ.filter (fun j => c j ≠ 0)).card ≤ K ∧
    (∑ j, c j) = 1 := by
  unfold llcCoeffRow at hc
  rcases hsol : npSolve (llcCreg D (llcIdx dnorm D x K) x reg)
      (fun _ => 1) with _ | w
  · rw [hsol] at hc
    exact absurd hc (by simp)
  · rw [hsol] at hc
    rw [Option.some_inj] at hc
    have hw := npSolve_spec _ _ _ hsol
    have hL : 0 < (llcIdx dnorm D x K).length := by
      rw [llcIdx_length dnorm D x K hKn]
      exact hK
    have hSne := llc_wsum_ne_zero D (llcIdx dnorm D x K) x reg w hreg hL hw
    have hfst : (((llcIdx dnorm D x K).zip
        ((List.finRange (llcIdx dnorm D x K).length).map
          (fun i => w i / ∑ i2, w i2))).map Prod.fst) = llcIdx dnorm D x K := by
      apply List.map_fst_zip
      simp
    have hmem : ∀ j, c j ≠ 0 → j ∈ llcIdx dnorm D x K := by
      intro j hj
      by_contra hnot
      exact hj (by rw [← hc]; exact scatterRow_not_mem _ j (by rw [hfst]; exact hnot))
    refine ⟨hmem, ?_, ?_⟩
    · calc (Finset.univ.filter (fun j => c j ≠ 0)).card
          ≤ (llcIdx dnorm D x K).toFinset.card := by
            apply Finset.card_le_card
            intro j hj
            rw [Finset.mem_filter] at hj
            rw [List.mem_toFinset]
            exact hmem j hj.2
      _ ≤ (llcIdx dnorm D x K).length := List.toFinset_card_le _
      _ = K := llcIdx_length dnorm D x K hKn
    · rw [← hc, scatterRow_sum _ (by rw [hfst]; exact llcIdx_nodup dnorm D x K)]
      have hsnd : (((llcIdx dnorm D x K).zip
          ((List.finRange (llcIdx dnorm D x K).length).map
            (fun i => w i / ∑ i2, w i2))).map Prod.snd) =
          (List.finRange (llcIdx dnorm D x K).length).map
            (fun i => w i / ∑ i2, w i2) := by
        apply List.map_snd_zip
        simp
      rw [hsnd, ← Fin.sum_univ_def, ← Finset.sum_div, div_self hSne]

/-- Witness for C4: dictionary `[[2]]`, `K = 1`, `reg = 0`, input row `[0]`. -/
theorem llc_coeff_sparse_and_sum_one_witness :
    ∃ c, llcCoeffRow (n := 1) (d := 1)
        (halfNorms (n := 1) (d := 1) (Matrix.of fun _ _ => (2 : ℚ)))
        (Matrix.of fun _ _ => (2 : ℚ)) 1 0 (fun _ => (0 : ℚ)) = some c ∧
      ∑ j, c j = 1 := by
  have hdet : (llcCreg (n := 1) (d := 1) (Matrix.of fun _ _ => (2 : ℚ))
      (llcIdx (n := 1) (d := 1)
        (halfNorms (n := 1) (d := 1) (Matrix.of fun _ _ => (2 : ℚ)))
        (Matrix.of fun _ _ => (2 : ℚ)) (fun _ => (0 : ℚ)) 1)
      (fun _ => (0 : ℚ)) 0).det = 4 := by
    show Matrix.det (n := Fin 1)
      (llcCreg (n := 1) (d := 1) (Matrix.of fun _ _ => (2 : ℚ))
        (llcIdx (n := 1) (d := 1)
          (halfNorms (n := 1) (d := 1) (Matrix.of fun _ _ => (2 : ℚ)))
          (Matrix.of fun _ _ => (2 : ℚ)) (fun _ => (0 : ℚ)) 1)
        (fun _ => (0 : ℚ)) 0) = 4
    rw [Matrix.det_fin_one]
    simp [llcCreg, llcC, llcZ, Matrix.mul_apply, Matrix.one_apply,
      Fin.sum_univ_one]
    norm_num
  have hadj : (llcCreg (n := 1) (d := 1) (Matrix.of fun _ _ => (2 : ℚ))
      (llcIdx (n := 1) (d := 1)
        (halfNorms (n := 1) (d := 1) (Matrix.of fun _ _ => (2 : ℚ)))
        (Matrix.of fun _ _ => (2 : ℚ)) (fun _ => (0 : ℚ)) 1)
      (fun _ => (0 : ℚ)) 0).adjugate = 1 := by
    show Matrix.adjugate (n := Fin 1)
      (llcCreg (n := 1) (d := 1) (Matrix.of fun _ _ => (2 : ℚ))
        (llcIdx (n := 1) (d := 1)
          (halfNorms (n := 1) (d := 1) (Matrix.of fun _ _ => (2 : ℚ)))
          (Matrix.of fun _ _ => (2 : ℚ)) (fun _ => (0 : ℚ)) 1)
        (fun _ => (0 : ℚ)) 0) = 1
    exact Matrix.adjugate_fin_one _
  have hsolve : npSolve (llcCreg (n := 1) (d := 1)
      (Matrix.of fun _ _ => (2 : ℚ))
      (llcIdx (n := 1) (d := 1)
        (halfNorms (n := 1) (d := 1) (Matrix.of fun _ _ => (2 : ℚ)))
        (Matrix.of fun _ _ => (2 : ℚ)) (fun _ => (0 : ℚ)) 1)
      (fun _ => (0 : ℚ)) 0) (fun _ => 1) = some (fun _ => 1/4) := by
    unfold npSolve
    rw [hdet, if_neg (by norm_num), hadj, Matrix.one_mulVec]
    congr 1
    funext i
    simp

  obtain ⟨c, hc⟩ : ∃ c, llcCoeffRow (n := 1) (d := 1)
      (halfNorms (n := 1) (d := 1) (Matrix.of fun _ _ => (2 : ℚ)))
      (Matrix.of fun _ _ => (2 : ℚ)) 1 0 (fun _ => (0 : ℚ)) = some c := by
    unfold llcCoeffRow
    rw [hsolve]
    exact ⟨_, rfl⟩
  exact ⟨c, hc, (llc_coeff_sparse_and_sum_one _ _ 1 0 _ c one_pos le_rfl
    le_rfl hc).2.2⟩

end Iceberk
